import Mathlib

/-
Verification of the lexer in src/lexer.rs (the full, symbol-aware variant,
which the design notes designate as the authoritative one).

Embedding conventions:
  * Rust bytes (u8) are Nat values 0..255; a Rust &str is represented by its
    byte sequence (List Nat).
  * Fallible or panicking operations are made explicit: `Res` has `ok`,
    `err` (a returned LexError) and `panic` (index out of bounds,
    a failed from_utf8 unwrap, a failed assert, unreachable code, or a
    failed Option unwrap).
  * The imperative loop in Lexer::lex accumulates tokens in a Vec; here
    lexLoop returns the accumulated token list directly.  The loop is
    driven by a fuel parameter so that the definition is structurally
    recursive and kernel-reducible; fuel equal to the input length is
    always sufficient because every iteration consumes at least one byte
    (the fuel-exhaustion branch is dead code, mapped to panic).
  * Floating point values are not modelled (f64 arithmetic); a Float
    literal stores the accepted literal text instead, and the grammar of
    Rust's f64 FromStr is modelled exactly for acceptance.
-/

namespace Lang

/-- Rust `matches!(ch, b'a'..=b'z' | b'A'..=b'Z' | b'_')`: a byte that may
start a word. -/
def isWordStart (b : Nat) : Bool :=
  (97 ≤ b && b ≤ 122) || (65 ≤ b && b ≤ 90) || b == 95

/-- Rust `matches!(ch, b'a'..=b'z' | b'A'..=b'Z' | b'_' | b'0'..=b'9')`:
the word-continuation byte class used by lex_word. -/
def isWordChar (b : Nat) : Bool :=
  (97 ≤ b && b ≤ 122) || (65 ≤ b && b ≤ 90) || b == 95 || (48 ≤ b && b ≤ 57)

/-- Rust `b'0'..=b'9'`. -/
def isDigitB (b : Nat) : Bool :=
  48 ≤ b && b ≤ 57

/-- Rust `matches!(ch, b'-' | b'e' | b'E' | b'0'..=b'9' | b'.')`: the byte
class scanned by lex_number. -/
def isNumChar (b : Nat) : Bool :=
  b == 45 || b == 101 || b == 69 || (48 ≤ b && b ≤ 57) || b == 46

/-- Rust `u8::is_ascii_whitespace`: space, tab, newline, form feed,
carriage return. -/
def isWs (b : Nat) : Bool :=
  b == 32 || b == 9 || b == 10 || b == 12 || b == 13

/-- A UTF-8 continuation byte (0x80..0xBF). -/
def isCont (b : Nat) : Bool :=
  128 ≤ b && b ≤ 191

/-- Consume one well-formed UTF-8 scalar from the front of the byte list
(RFC 3629 table, as checked by `std::str::from_utf8`), returning the
remaining bytes, or `none` if the front is ill-formed. -/
def utf8SeqOK : List Nat → Option (List Nat)
  | [] => none
  | b :: rest =>
    if b < 128 then some rest
    else if 194 ≤ b && b ≤ 223 then
      match rest with
      | b1 :: rest2 => if isCont b1 then some rest2 else none
      | [] => none
    else if b == 224 then
      match rest with
      | b1 :: b2 :: rest2 =>
        if (160 ≤ b1 && b1 ≤ 191) && isCont b2 then some rest2 else none
      | _ => none
    else if (225 ≤ b && b ≤ 236) || b == 238 || b == 239 then
      match rest with
      | b1 :: b2 :: rest2 => if isCont b1 && isCont b2 then some rest2 else none
      | _ => none
    else if b == 237 then
      match rest with
      | b1 :: b2 :: rest2 =>
        if (128 ≤ b1 && b1 ≤ 159) && isCont b2 then some rest2 else none
      | _ => none
    else if b == 240 then
      match rest with
      | b1 :: b2 :: b3 :: rest2 =>
        if (144 ≤ b1 && b1 ≤ 191) && isCont b2 && isCont b3 then some rest2 else none
      | _ => none
    else if 241 ≤ b && b ≤ 243 then
      match rest with
      | b1 :: b2 :: b3 :: rest2 =>
        if isCont b1 && isCont b2 && isCont b3 then some rest2 else none
      | _ => none
    else if b == 244 then
      match rest with
      | b1 :: b2 :: b3 :: rest2 =>
        if (128 ≤ b1 && b1 ≤ 143) && isCont b2 && isCont b3 then some rest2 else none
      | _ => none
    else none

/-- UTF-8 validity, consuming one scalar at a time.  Fuel bounds the
number of scalars; each scalar takes at least one byte, so fuel equal to
the byte count always suffices (the fuel-0 branch on a nonempty list is
dead code). -/
def validUtf8Go : Nat → List Nat → Bool
  | _, [] => true
  | 0, _ :: _ => false
  | fuel + 1, l =>
    match utf8SeqOK l with
    | some r => validUtf8Go fuel r
    | none => false

/-- UTF-8 validity of a byte sequence, as checked by
`std::str::from_utf8`. -/
def validUtf8 (l : List Nat) : Bool :=
  validUtf8Go l.length l

/-- Rust `struct Position { line: usize, col: usize }`. -/
structure Position where
  line : Nat
  col : Nat
deriving DecidableEq, Repr

/-- Rust `struct LexError {}` — a unit struct carrying no fields. -/
structure LexError where
deriving DecidableEq, Repr

/-- Rust `Cow<'a, str>`: a borrowed view into the source buffer, or an
owned freshly allocated buffer.  Both carry their byte content. -/
inductive CowStr where
  | Borrowed (s : List Nat)
  | Owned (s : List Nat)
deriving DecidableEq, Repr

/-- Rust `enum Literal`.  `Float` keeps the accepted literal text because
f64 values are outside the embedding (floating point). -/
inductive Literal where
  | Int (i : Int)
  | Float (text : List Nat)
  | String (s : CowStr)
  | Char (c : Nat)
deriving DecidableEq, Repr

/-- Rust `enum Symbol`. -/
inductive Symbol where
  | Colon
  | DoubleColon
  | SemiColon
  | LeftBrace
  | RightBrace
  | LeftParam
  | RightParam
  | LeftSquareBracket
  | RightSquareBracket
  | Plus
  | Minus
  | Star
  | Slash
  | PlusEqual
  | MinusEqual
  | StarEqual
  | SlashEqual
  | Pipe
  | DoublePipe
  | Ampersand
  | DoubleAmpersand
  | Caret
  | CaretEqual
  | PipeEqual
  | AmpersandEqual
  | LessThan
  | GreaterThan
  | LessThanEqual
  | GreaterThanEqual
  | Shr
  | Shl
  | ShrEqual
  | ShlEqual
  | Bang
  | BangEqual
  | Dot
  | BackSlash
  | Comma
  | DoubleEqual
  | Equal
  | Arrow
  | FatArrow
deriving DecidableEq, Repr

/-- Rust `enum Keyword`. -/
inductive Keyword where
  | Import
  | Struct
  | Fn
  | Enum
  | Mod
  | Const
  | Let
  | If
  | Else
  | For
  | In
  | While
  | Return
  | Break
  | Continue
  | Print
deriving DecidableEq, Repr

/-- Rust `struct Ident { name: &'a str }`. -/
structure Ident where
  name : List Nat
deriving DecidableEq, Repr

/-- Rust `enum Kind`. -/
inductive Kind where
  | Literal (l : Literal)
  | Symbol (s : Symbol)
  | Identifier (i : Ident)
  | Keyword (k : Keyword)
deriving DecidableEq, Repr

/-- Rust `struct Token { pos: Position, kind: Kind }`. -/
structure Token where
  pos : Position
  kind : Kind
deriving DecidableEq, Repr

/-- The mutable Lexer state: current line, current column, and the
unconsumed remainder of the input. -/
structure LexState where
  cur_line : Nat
  cur_col : Nat
  input : List Nat
deriving DecidableEq, Repr

/-- Outcome of a lexing step: a value, a returned LexError, or a panic
(index out of bounds, failed unwrap, failed assert, unreachable). -/
inductive Res (α : Type) where
  | ok (val : α)
  | err (e : LexError)
  | panic
deriving DecidableEq, Repr

/-- ASCII bytes of a Lean string literal (used for the keyword table and
test inputs; all arguments are ASCII). -/
def bytesOfAscii (s : String) : List Nat :=
  s.data.map Char.toNat

/-- Numeric value of a nonempty all-digit byte sequence, `none` otherwise. -/
def digitsVal : List Nat → Option Nat
  | [] => none
  | [b] => if isDigitB b then some (b - 48) else none
  | b :: rest =>
    if isDigitB b then
      match digitsVal rest with
      | some n => some ((b - 48) * 10 ^ rest.length + n)
      | none => none
    else none

/-- Rust `<i64 as FromStr>::from_str`: optional sign, one or more digits,
rejecting values outside the i64 range. -/
def parseI64 (bs : List Nat) : Option Int :=
  match bs with
  | 43 :: rest =>
    match digitsVal rest with
    | some n => if n ≤ 9223372036854775807 then some (n : Int) else none
    | none => none
  | 45 :: rest =>
    match digitsVal rest with
    | some n => if n ≤ 9223372036854775808 then some (-(n : Int)) else none
    | none => none
  | _ =>
    match digitsVal bs with
    | some n => if n ≤ 9223372036854775807 then some (n : Int) else none
    | none => none

/-- Strip one optional leading sign byte. -/
def stripSign (bs : List Nat) : List Nat :=
  match bs with
  | 43 :: rest => rest
  | 45 :: rest => rest
  | _ => bs

/-- One or more digit bytes. -/
def digits1 (bs : List Nat) : Bool :=
  !bs.isEmpty && bs.all isDigitB

/-- Not an exponent marker byte (`e` or `E`). -/
def notExpMark (b : Nat) : Bool :=
  !(b == 101 || b == 69)

/-- The mantissa grammar of Rust's f64 FromStr:
`Digits | Digits . Digits? | . Digits`. -/
def mantOK (bs : List Nat) : Bool :=
  let intPart := bs.takeWhile isDigitB
  match bs.dropWhile isDigitB with
  | [] => !intPart.isEmpty
  | 46 :: frac =>
      (!intPart.isEmpty && frac.all isDigitB) || (intPart.isEmpty && digits1 frac)
  | _ => false

/-- Exponent part after the marker: optional sign then digits. -/
def expOK (bs : List Nat) : Bool :=
  digits1 (stripSign bs)

/-- Number grammar of Rust's f64 FromStr: mantissa, optionally followed by
an exponent marker and exponent. -/
def numberOK (bs : List Nat) : Bool :=
  let m := bs.takeWhile notExpMark
  match bs.dropWhile notExpMark with
  | [] => mantOK m
  | _ :: ex => mantOK m && expOK ex

/-- Lowercase an ASCII byte. -/
def lowerB (b : Nat) : Nat :=
  if 65 ≤ b && b ≤ 90 then b + 32 else b

/-- Case-insensitive `inf`, `infinity`, `nan` (accepted by Rust's f64
FromStr; unreachable from the number scanner, whose charset has no such
letters, but modelled for faithfulness). -/
def isInfNan (bs : List Nat) : Bool :=
  let l := bs.map lowerB
  l == bytesOfAscii ("inf") || l == bytesOfAscii ("infinity") ||
    l == bytesOfAscii ("nan")

/-- Acceptance of Rust `<f64 as FromStr>::from_str`: optional sign, then
inf/nan or a number.  Only acceptance is modelled; the f64 value is not. -/
def parseF64accepts (bs : List Nat) : Bool :=
  let b1 := stripSign bs
  isInfNan b1 || numberOK b1

/-- The keyword match in lex_word: the fixed table of reserved words,
falling through to Identifier. -/
def kindOfWord (w : List Nat) : Kind :=
  if w = bytesOfAscii ("import") then .Keyword .Import
  else if w = bytesOfAscii ("struct") then .Keyword .Struct
  else if w = bytesOfAscii ("fn") then .Keyword .Fn
  else if w = bytesOfAscii ("enum") then .Keyword .Enum
  else if w = bytesOfAscii ("mod") then .Keyword .Mod
  else if w = bytesOfAscii ("const") then .Keyword .Const
  else if w = bytesOfAscii ("let") then .Keyword .Let
  else if w = bytesOfAscii ("if") then .Keyword .If
  else if w = bytesOfAscii ("else") then .Keyword .Else
  else if w = bytesOfAscii ("for") then .Keyword .For
  else if w = bytesOfAscii ("in") then .Keyword .In
  else if w = bytesOfAscii ("while") then .Keyword .While
  else if w = bytesOfAscii ("return") then .Keyword .Return
  else if w = bytesOfAscii ("break") then .Keyword .Break
  else if w = bytesOfAscii ("continue") then .Keyword .Continue
  else if w = bytesOfAscii ("print") then .Keyword .Print
  else .Identifier ⟨w⟩

/-- `Lexer::lex_word`: take the maximal run of word bytes (the source
finds the first index whose byte falls outside the class; that prefix is
`takeWhile isWordChar`), check UTF-8 (the `from_utf8(..).unwrap()`),
classify against the keyword table, and advance the column by the run
length. -/
def lex_word (s : LexState) : Res (Token × LexState) :=
  let word := s.input.takeWhile isWordChar
  let rest := s.input.dropWhile isWordChar
  if validUtf8 word then
    .ok (⟨⟨s.cur_line, s.cur_col⟩, kindOfWord word⟩,
      ⟨s.cur_line, s.cur_col + word.length, rest⟩)
  else .panic

/-- `Lexer::lex_number`: take the maximal run of number-charset bytes,
check UTF-8, then attempt an i64 parse, then an f64 parse, else return a
LexError. -/
def lex_number (s : LexState) : Res (Token × LexState) :=
  let num := s.input.takeWhile isNumChar
  let rest := s.input.dropWhile isNumChar
  if validUtf8 num then
    match parseI64 num with
    | some n =>
      .ok (⟨⟨s.cur_line, s.cur_col⟩, .Literal (.Int n)⟩,
        ⟨s.cur_line, s.cur_col + num.length, rest⟩)
    | none =>
      if parseF64accepts num then
        .ok (⟨⟨s.cur_line, s.cur_col⟩, .Literal (.Float num)⟩,
          ⟨s.cur_line, s.cur_col + num.length, rest⟩)
      else .err ⟨⟩
  else .panic

/-- Result of the scanning while-loop in lex_string: the closing quote was
found at index `idx` (break), the input was exhausted, an invalid escape
was seen (early return), or the loop indexed past the end of the buffer
(panic: `self.input[idx]` with `idx == len` after a trailing backslash). -/
inductive ScanOut where
  | found (idx newlines new_col : Nat) (escaped : Bool)
  | exhausted (idx newlines new_col : Nat) (escaped : Bool)
  | errScan
  | panicScan
deriving DecidableEq, Repr

/-- The while-loop of `Lexer::lex_string` over the bytes after the opening
quote: `rem` is the part of that buffer from `idx` on.  The source tests
`input[idx]` for the quote, then the backslash, then the newline, in that
order; the patterns below mirror that dispatch (earlier patterns take
precedence). -/
def scanStr : List Nat → Nat → Nat → Nat → Bool → ScanOut
  | [], idx, nl, nc, esc => .exhausted idx nl nc esc
  | 34 :: _, idx, nl, nc, esc => .found idx nl (nc + 1) esc
  | 92 :: [], _, _, _, _ => .panicScan
  | 92 :: c :: rem2, idx, nl, nc, esc =>
    if c == 92 || c == 34 || c == 116 || c == 110 || c == 114 then
      scanStr rem2 (idx + 2) nl (nc + 2) true
    else .errScan
  | 10 :: rem, idx, nl, _, esc => scanStr rem (idx + 1) (nl + 1) 1 esc
  | _ :: rem, idx, nl, nc, esc => scanStr rem (idx + 1) nl (nc + 1) esc

/-- The second pass of lex_string: rebuild the string, replacing each
escape pair with its decoded character.  The source iterates chars of a
valid-UTF-8 str; byte-level processing is equivalent because the byte 92
never occurs inside a multi-byte sequence.  `none` models the panics
(`chars.next().unwrap()` on a trailing backslash, `unreachable!` on an
unknown code). -/
def decodeEsc : List Nat → Option (List Nat)
  | [] => some []
  | 92 :: rest =>
    match rest with
    | [] => none
    | c :: rest2 =>
      match decodeEsc rest2 with
      | none => none
      | some v =>
        if c == 92 then some (92 :: v)
        else if c == 34 then some (34 :: v)
        else if c == 116 then some (9 :: v)
        else if c == 110 then some (10 :: v)
        else if c == 114 then some (13 :: v)
        else none
  | b :: rest =>
    match decodeEsc rest with
    | none => none
    | some v => some (b :: v)

/-- `Lexer::lex_string`: assert the leading quote, run the scan loop,
build `word` from the scanned prefix (the `from_utf8(..).unwrap()` happens
before the unterminated check, in source order), fail if the input was
exhausted, otherwise emit a Borrowed view when no escape occurred and an
Owned decoded buffer otherwise, updating line by the embedded newline
count and column to the computed `new_col`. -/
def lex_string (s : LexState) : Res (Token × LexState) :=
  match s.input with
  | 34 :: content =>
    match scanStr content 0 0 (s.cur_col + 1) false with
    | .panicScan => .panic
    | .errScan => .err ⟨⟩
    | .exhausted idx _ _ _ =>
      if validUtf8 (content.take idx) then .err ⟨⟩ else .panic
    | .found idx nl nc esc =>
      let word := content.take idx
      if validUtf8 word then
        match (if esc then (decodeEsc word).map CowStr.Owned
               else some (CowStr.Borrowed word)) with
        | none => .panic
        | some cs =>
          .ok (⟨⟨s.cur_line, s.cur_col⟩, .Literal (.String cs)⟩,
            ⟨s.cur_line + nl, nc, content.drop (idx + 1)⟩)
      else .panic
  | _ => .panic

/-- Decode table of the character scanner's escape codes. -/
def charEscape (c : Nat) : Option Nat :=
  if c == 39 then some 39
  else if c == 92 then some 92
  else if c == 116 then some 9
  else if c == 110 then some 10
  else if c == 114 then some 13
  else none

/-- `Lexer::lex_character`: assert the leading single quote, read one
escape pair or one literal byte, require the closing quote; the column
advances by 3 (or 4 with an escape). -/
def lex_character (s : LexState) : Res (Token × LexState) :=
  match s.input with
  | 39 :: rest =>
    match rest with
    | 92 :: rest2 =>
      match rest2 with
      | c :: rest3 =>
        match charEscape c with
        | some d =>
          match rest3 with
          | 39 :: rest4 =>
            .ok (⟨⟨s.cur_line, s.cur_col⟩, .Literal (.Char d)⟩,
              ⟨s.cur_line, s.cur_col + 4, rest4⟩)
          | _ => .err ⟨⟩
        | none => .err ⟨⟩
      | [] => .err ⟨⟩
    | c :: rest2 =>
      match rest2 with
      | 39 :: rest3 =>
        .ok (⟨⟨s.cur_line, s.cur_col⟩, .Literal (.Char c)⟩,
          ⟨s.cur_line, s.cur_col + 3, rest3⟩)
      | _ => .err ⟨⟩
    | [] => .err ⟨⟩
  | _ => .panic

/-- `Lexer::try_lex_symbol`: the longest-match table over the first byte
with up to two bytes of lookahead.  `rest.head?` is the first `peek_next`
(the byte after the start byte); after an extension byte is consumed by
`advance(1)`, the next `peek_next` is `rest.tail.head?`.  The pair is the
symbol and the total number of bytes consumed (which also equals the
column advance). -/
def symbolLookup (ch : Nat) (rest : List Nat) : Option (Symbol × Nat) :=
  if ch = 91 then some (.LeftSquareBracket, 1)
  else if ch = 93 then some (.RightSquareBracket, 1)
  else if ch = 40 then some (.LeftParam, 1)
  else if ch = 41 then some (.RightParam, 1)
  else if ch = 123 then some (.LeftBrace, 1)
  else if ch = 125 then some (.RightBrace, 1)
  else if ch = 59 then some (.SemiColon, 1)
  else if ch = 46 then some (.Dot, 1)
  else if ch = 44 then some (.Comma, 1)
  else if ch = 58 then
    if rest.head? = some 58 then some (.DoubleColon, 2) else some (.Colon, 1)
  else if ch = 43 then
    if rest.head? = some 61 then some (.PlusEqual, 2) else some (.Plus, 1)
  else if ch = 45 then
    if rest.head? = some 61 then some (.MinusEqual, 2)
    else if rest.head? = some 62 then some (.Arrow, 2)
    else some (.Minus, 1)
  else if ch = 42 then
    if rest.head? = some 61 then some (.StarEqual, 2) else some (.Star, 1)
  else if ch = 47 then
    if rest.head? = some 61 then some (.SlashEqual, 2) else some (.Slash, 1)
  else if ch = 62 then
    if rest.head? = some 61 then some (.GreaterThanEqual, 2)
    else if rest.head? = some 62 then
      if rest.tail.head? = some 61 then some (.ShrEqual, 3) else some (.Shr, 2)
    else some (.GreaterThan, 1)
  else if ch = 60 then
    if rest.head? = some 61 then some (.LessThanEqual, 2)
    else if rest.head? = some 60 then
      if rest.tail.head? = some 61 then some (.ShlEqual, 3) else some (.Shl, 2)
    else some (.LessThan, 1)
  else if ch = 124 then
    if rest.head? = some 124 then some (.DoublePipe, 2)
    else if rest.head? = some 61 then some (.PipeEqual, 2)
    else some (.Pipe, 1)
  else if ch = 38 then
    if rest.head? = some 38 then some (.DoubleAmpersand, 2)
    else if rest.head? = some 61 then some (.AmpersandEqual, 2)
    else some (.Ampersand, 1)
  else if ch = 94 then
    if rest.head? = some 61 then some (.CaretEqual, 2) else some (.Caret, 1)
  else if ch = 61 then
    if rest.head? = some 61 then some (.DoubleEqual, 2)
    else if rest.head? = some 62 then some (.FatArrow, 2)
    else some (.Equal, 1)
  else if ch = 92 then some (.BackSlash, 1)
  else if ch = 33 then
    if rest.head? = some 61 then some (.BangEqual, 2) else some (.Bang, 1)
  else none

/-- `Lexer::try_lex_symbol`: `self.input[0]` panics on empty input (the
dispatcher guarantees nonempty); an unmatched byte returns a LexError;
otherwise the token at the current position is emitted and position and
input advance by the consumed byte count. -/
def try_lex_symbol (s : LexState) : Res (Token × LexState) :=
  match s.input with
  | [] => .panic
  | ch :: rest =>
    match symbolLookup ch rest with
    | some (sym, k) =>
      .ok (⟨⟨s.cur_line, s.cur_col⟩, .Symbol sym⟩,
        ⟨s.cur_line, s.cur_col + k, (ch :: rest).drop k⟩)
    | none => .err ⟨⟩

/-- The dispatch loop of `Lexer::lex`, with the token Vec turned into the
returned list.  Fuel drives the recursion; every iteration consumes at
least one byte, so fuel equal to the input length never runs out (the
fuel-0 branch on nonempty input is dead code). -/
def lexLoop : Nat → LexState → Res (List Token)
  | fuel, s =>
    match s.input with
    | [] => .ok []
    | ch :: rest =>
      match fuel with
      | 0 => .panic
      | fuel' + 1 =>
        if isWordStart ch then
          match lex_word s with
          | .ok (t, s') =>
            match lexLoop fuel' s' with
            | .ok ts => .ok (t :: ts)
            | .err e => .err e
            | .panic => .panic
          | .err e => .err e
          | .panic => .panic
        else if isDigitB ch then
          match lex_number s with
          | .ok (t, s') =>
            match lexLoop fuel' s' with
            | .ok ts => .ok (t :: ts)
            | .err e => .err e
            | .panic => .panic
          | .err e => .err e
          | .panic => .panic
        else if ch == 34 then
          match lex_string s with
          | .ok (t, s') =>
            match lexLoop fuel' s' with
            | .ok ts => .ok (t :: ts)
            | .err e => .err e
            | .panic => .panic
          | .err e => .err e
          | .panic => .panic
        else if ch == 39 then
          match lex_character s with
          | .ok (t, s') =>
            match lexLoop fuel' s' with
            | .ok ts => .ok (t :: ts)
            | .err e => .err e
            | .panic => .panic
          | .err e => .err e
          | .panic => .panic
        else if ch == 10 then
          lexLoop fuel' ⟨s.cur_line + 1, 1, rest⟩
        else if isWs ch then
          lexLoop fuel' ⟨s.cur_line, s.cur_col + 1, rest⟩
        else
          match try_lex_symbol s with
          | .ok (t, s') =>
            match lexLoop fuel' s' with
            | .ok ts => .ok (t :: ts)
            | .err e => .err e
            | .panic => .panic
          | .err e => .err e
          | .panic => .panic

/-- `Lexer::new` followed by `Lexer::lex` followed by `get_tokens`: lex a
whole input buffer starting at line 1, column 1. -/
def lex (input : List Nat) : Res (List Token) :=
  lexLoop input.length ⟨1, 1, input⟩

/-! ### Specification-side definitions -/

/-- Strict ordering of source positions: by line, then by column. -/
def posLt (p q : Position) : Prop :=
  p.line < q.line ∨ (p.line = q.line ∧ p.col < q.col)

/-- Reflexive ordering of source positions. -/
def posLe (p q : Position) : Prop :=
  p.line < q.line ∨ (p.line = q.line ∧ p.col ≤ q.col)

/-- Modelled from the spec's coverage invariant: a gap/length decomposition
of the input.  Each entry `(g, k)` records `g` skipped bytes (all of which
must be whitespace) followed by a token's span of `k ≥ 1` bytes; any bytes
after the last span must also be whitespace.  Such a decomposition with
one entry per token is exactly "the token sequence covers every
non-whitespace byte exactly once, with no gaps and no overlaps". -/
def Covers : List Nat → List (Nat × Nat) → Prop
  | inp, [] => ∀ b ∈ inp, isWs b = true
  | inp, (g, k) :: spans =>
    (∀ b ∈ inp.take g, isWs b = true) ∧ 1 ≤ k ∧ g + k ≤ inp.length ∧
      Covers (inp.drop (g + k)) spans

/-- The five escape code bytes recognized inside a string literal. -/
def escCode (c : Nat) : Bool :=
  c == 92 || c == 34 || c == 116 || c == 110 || c == 114

/-- Well-formed string-literal content between the quotes: every backslash
begins a two-byte escape pair with a recognized code, and no unescaped
quote occurs. -/
def WfContent : List Nat → Bool
  | [] => true
  | 92 :: rest =>
    match rest with
    | [] => false
    | c :: rest2 => escCode c && WfContent rest2
  | 34 :: _ => false
  | _ :: rest => WfContent rest

/-- Decoded character of a string escape code byte. -/
def escDecodeChar (c : Nat) : Nat :=
  if c == 92 then 92
  else if c == 34 then 34
  else if c == 116 then 9
  else if c == 110 then 10
  else if c == 114 then 13
  else 0

/-- Modelled from the spec's words for string decoding: each two-character
escape pair is replaced by its single decoded character, every other
character is kept, and no escape syntax remains.  This is the reference
against which the source's second decoding pass is compared. -/
def specDecode : List Nat → List Nat
  | 92 :: c :: rest => escDecodeChar c :: specDecode rest
  | b :: rest => b :: specDecode rest
  | [] => []

/-- Whether string-literal content contains an escape sequence (a
backslash byte). -/
def hasEsc : List Nat → Bool
  | [] => false
  | 92 :: _ => true
  | _ :: rest => hasEsc rest

/-- Newlines embedded in well-formed string-literal content (escape pairs
contain none: their second byte is a code byte). -/
def countNl : List Nat → Nat
  | [] => 0
  | 92 :: _ :: rest => countNl rest
  | 10 :: rest => 1 + countNl rest
  | _ :: rest => countNl rest

/-- Column bookkeeping of the string scan over well-formed content: an
escape pair advances by two, a newline resets to one, any other byte
advances by one. -/
def colAfter : Nat → List Nat → Nat
  | c0, [] => c0
  | c0, 92 :: _ :: rest => colAfter (c0 + 2) rest
  | _, 10 :: rest => colAfter 1 rest
  | c0, _ :: rest => colAfter (c0 + 1) rest

/-- The sixteen reserved words of the language, as byte strings. -/
def keywordTable : List (List Nat) :=
  [bytesOfAscii ("import"), bytesOfAscii ("struct"), bytesOfAscii ("fn"),
   bytesOfAscii ("enum"), bytesOfAscii ("mod"), bytesOfAscii ("const"),
   bytesOfAscii ("let"), bytesOfAscii ("if"), bytesOfAscii ("else"),
   bytesOfAscii ("for"), bytesOfAscii ("in"), bytesOfAscii ("while"),
   bytesOfAscii ("return"), bytesOfAscii ("break"), bytesOfAscii ("continue"),
   bytesOfAscii ("print")]

/-- Proof-layer abbreviation for the token-branch control flow of
`lexLoop` (run a sub-scanner, then continue the loop and cons the token);
used only to state the loop's one-step unfolding lemmas. -/
def stepBind (r : Res (Token × LexState)) (cont : LexState → Res (List Token)) :
    Res (List Token) :=
  match r with
  | .ok (t, s') =>
    match cont s' with
    | .ok ts => .ok (t :: ts)
    | .err e => .err e
    | .panic => .panic
  | .err e => .err e
  | .panic => .panic

/-- Proof-layer summary of one successful sub-scanner step from the state
with position (l, c) and input `inp`: k ≥ 1 bytes were consumed, the
emitted token is positioned at (l, c), and the cursor moved strictly
forward — either the same line with the column advanced by exactly k, or
a strictly later line. -/
def ScanStep (l c : Nat) (inp : List Nat) (t : Token) (s' : LexState) : Prop :=
  ∃ k, 1 ≤ k ∧ k ≤ inp.length ∧ t.pos = ⟨l, c⟩ ∧ s'.input = inp.drop k ∧
    ((s'.cur_line = l ∧ s'.cur_col = c + k) ∨ l < s'.cur_line)

/-! ### Basic lemmas -/

theorem posLt_trans_posLe {p q r : Position} (h1 : posLt p q) (h2 : posLe q r) :
    posLt p r := by
  rcases h1 with h1 | ⟨e1, h1⟩ <;> rcases h2 with h2 | ⟨e2, h2⟩ <;>
    simp only [posLt] <;> omega

theorem posLe_trans {p q r : Position} (h1 : posLe p q) (h2 : posLe q r) :
    posLe p r := by
  rcases h1 with h1 | ⟨e1, h1⟩ <;> rcases h2 with h2 | ⟨e2, h2⟩ <;>
    simp only [posLe] <;> omega

theorem posLe_refl (p : Position) : posLe p p := by
  simp [posLe]

theorem isWs_cases {b : Nat} (h : isWs b = true) :
    b = 32 ∨ b = 9 ∨ b = 10 ∨ b = 12 ∨ b = 13 := by
  simp [isWs] at h
  omega

theorem isWordChar_of_start {b : Nat} (h : isWordStart b = true) :
    isWordChar b = true := by
  simp [isWordStart] at h
  simp [isWordChar]
  omega

theorem isWordChar_of_digit {b : Nat} (h : isDigitB b = true) :
    isNumChar b = true := by
  simp [isDigitB] at h
  simp [isNumChar]
  omega

theorem isWordChar_lt_128 {b : Nat} (h : isWordChar b = true) : b < 128 := by
  simp [isWordChar] at h
  omega

theorem isNumChar_lt_128 {b : Nat} (h : isNumChar b = true) : b < 128 := by
  simp [isNumChar] at h
  omega

theorem utf8SeqOK_ascii {b : Nat} (rest : List Nat) (hb : b < 128) :
    utf8SeqOK (b :: rest) = some rest := by
  simp only [utf8SeqOK]
  rw [if_pos hb]

theorem validUtf8Go_of_ascii : ∀ (fuel : Nat) (l : List Nat),
    l.length ≤ fuel → (∀ b ∈ l, b < 128) → validUtf8Go fuel l = true := by
  intro fuel
  induction fuel with
  | zero =>
    intro l hlen _
    cases l with
    | nil => rfl
    | cons b rest => simp at hlen
  | succ fuel ih =>
    intro l hlen h
    cases l with
    | nil => rfl
    | cons b rest =>
      have hb : b < 128 := h b (by simp)
      simp only [validUtf8Go, utf8SeqOK_ascii rest hb]
      exact ih rest (by simp at hlen; omega) fun x hx => h x (by simp [hx])

theorem validUtf8_of_ascii {l : List Nat} (h : ∀ b ∈ l, b < 128) :
    validUtf8 l = true :=
  validUtf8Go_of_ascii l.length l le_rfl h

/-- `dropWhile` drops exactly the `takeWhile` prefix. -/
theorem dropWhile_eq_drop_takeWhile (p : Nat → Bool) :
    ∀ l : List Nat, l.dropWhile p = l.drop (l.takeWhile p).length := by
  intro l
  induction l with
  | nil => rfl
  | cons b rest ih =>
    by_cases hb : p b
    · simp [List.takeWhile_cons, List.dropWhile_cons, hb, ih]
    · simp [List.takeWhile_cons, List.dropWhile_cons, hb]

theorem takeWhile_append_of_all (p : Nat → Bool) :
    ∀ (xs ys : List Nat), (∀ x ∈ xs, p x = true) →
      (xs ++ ys).takeWhile p = xs ++ ys.takeWhile p := by
  intro xs ys h
  induction xs with
  | nil => simp
  | cons a tl ih =>
    have ha : p a = true := h a (by simp)
    simp only [List.cons_append, List.takeWhile_cons, ha, if_true]
    rw [ih fun x hx => h x (by simp [hx])]

theorem dropWhile_append_of_all (p : Nat → Bool) :
    ∀ (xs ys : List Nat), (∀ x ∈ xs, p x = true) →
      (xs ++ ys).dropWhile p = ys.dropWhile p := by
  intro xs ys h
  induction xs with
  | nil => simp
  | cons a tl ih =>
    have ha : p a = true := h a (by simp)
    simp only [List.cons_append, List.dropWhile_cons, ha, if_true]
    exact ih fun x hx => h x (by simp [hx])

theorem takeWhile_head_false (p : Nat → Bool) :
    ∀ ys : List Nat, (∀ r ∈ ys.head?, p r = false) → ys.takeWhile p = [] := by
  intro ys h
  cases ys with
  | nil => rfl
  | cons a tl =>
    have := h a (by simp)
    simp [List.takeWhile_cons, this]

theorem dropWhile_head_false (p : Nat → Bool) :
    ∀ ys : List Nat, (∀ r ∈ ys.head?, p r = false) → ys.dropWhile p = ys := by
  intro ys h
  cases ys with
  | nil => rfl
  | cons a tl =>
    have := h a (by simp)
    simp [List.dropWhile_cons, this]

/-! ### String scanning lemmas -/

theorem WfContent_cons_other {b : Nat} (tail : List Nat) (h92 : b ≠ 92)
    (h34 : b ≠ 34) : WfContent (b :: tail) = WfContent tail := by
  cases tail <;> simp [WfContent, h92, h34]

theorem countNl_cons_other {b : Nat} (tail : List Nat) (h92 : b ≠ 92)
    (h10 : b ≠ 10) : countNl (b :: tail) = countNl tail := by
  cases tail <;> simp [countNl, h92, h10]

theorem colAfter_cons_other {b : Nat} (c0 : Nat) (tail : List Nat) (h92 : b ≠ 92)
    (h10 : b ≠ 10) : colAfter c0 (b :: tail) = colAfter (c0 + 1) tail := by
  cases tail <;> simp [colAfter, h92, h10]

theorem hasEsc_cons_other {b : Nat} (tail : List Nat) (h92 : b ≠ 92) :
    hasEsc (b :: tail) = hasEsc tail := by
  cases tail <;> simp [hasEsc, h92]

theorem scanStr_cons_other {b : Nat} (rem : List Nat) (i0 n0 c0 : Nat) (e0 : Bool)
    (h34 : b ≠ 34) (h92 : b ≠ 92) (h10 : b ≠ 10) :
    scanStr (b :: rem) i0 n0 c0 e0 = scanStr rem (i0 + 1) n0 (c0 + 1) e0 := by
  cases rem <;> simp [scanStr, h34, h92, h10]

/-- Scanning well-formed content followed by the closing quote finds the
quote exactly at the end of the content, accumulating the newline count,
the column bookkeeping, and the escape flag. -/
theorem scanStr_wf : ∀ (n : Nat) (content : List Nat), content.length ≤ n →
    WfContent content = true → ∀ (i0 n0 c0 : Nat) (e0 : Bool) (rest : List Nat),
    scanStr (content ++ 34 :: rest) i0 n0 c0 e0 =
      .found (i0 + content.length) (n0 + countNl content)
        (colAfter c0 content + 1) (e0 || hasEsc content) := by
  intro n
  induction n with
  | zero =>
    intro content hlen _ i0 n0 c0 e0 rest
    have hc : content = [] := List.eq_nil_of_length_eq_zero (Nat.le_zero.mp hlen)
    subst hc
    simp [scanStr, countNl, colAfter, hasEsc]
  | succ n ih =>
    intro content hlen hwf i0 n0 c0 e0 rest
    cases content with
    | nil => simp [scanStr, countNl, colAfter, hasEsc]
    | cons b tail =>
      by_cases hb34 : b = 34
      · subst hb34
        simp [WfContent] at hwf
      · by_cases hb92 : b = 92
        · subst hb92
          cases tail with
          | nil => simp [WfContent] at hwf
          | cons cc tail2 =>
            simp only [WfContent, Bool.and_eq_true] at hwf
            obtain ⟨hcc, hwf2⟩ := hwf
            have hlen2 : tail2.length ≤ n := by
              simp at hlen
              omega
            have ihx := ih tail2 hlen2 hwf2 (i0 + 2) n0 (c0 + 2) true rest
            simp only [escCode] at hcc
            simp only [List.cons_append, List.append_eq, scanStr, hcc, if_true,
              Bool.or_self, ihx, countNl, colAfter, hasEsc, List.length_cons,
              Bool.true_or, Bool.or_true, ScanOut.found.injEq, eq_self_iff_true,
              and_true, true_and]
            all_goals omega
        · by_cases hb10 : b = 10
          · subst hb10
            have hwf2 : WfContent tail = true := by
              rwa [WfContent_cons_other tail (by omega) (by omega)] at hwf
            have hlen2 : tail.length ≤ n := by
              simp at hlen
              omega
            have ihx := ih tail hlen2 hwf2 (i0 + 1) (n0 + 1) 1 e0 rest
            simp only [List.cons_append, List.append_eq, scanStr, ihx, countNl,
              colAfter, hasEsc, List.length_cons, ScanOut.found.injEq,
              eq_self_iff_true, and_true, true_and]
            all_goals omega
          · have hwf2 : WfContent tail = true := by
              rwa [WfContent_cons_other tail hb92 hb34] at hwf
            have hlen2 : tail.length ≤ n := by
              simp at hlen
              omega
            have ihx := ih tail hlen2 hwf2 (i0 + 1) n0 (c0 + 1) e0 rest
            rw [List.cons_append, scanStr_cons_other _ _ _ _ _ hb34 hb92 hb10, ihx,
              countNl_cons_other tail hb92 hb10, colAfter_cons_other c0 tail hb92 hb10,
              hasEsc_cons_other tail hb92]
            simp only [List.length_cons, ScanOut.found.injEq, eq_self_iff_true,
              and_true, true_and]
            all_goals omega

/-- The source's second decoding pass agrees with the specification-side
decoder on well-formed content. -/
theorem decodeEsc_wf : ∀ (n : Nat) (content : List Nat), content.length ≤ n →
    WfContent content = true → decodeEsc content = some (specDecode content) := by
  intro n
  induction n with
  | zero =>
    intro content hlen _
    have hc : content = [] := List.eq_nil_of_length_eq_zero (Nat.le_zero.mp hlen)
    subst hc
    rfl
  | succ n ih =>
    intro content hlen hwf
    cases content with
    | nil => rfl
    | cons b tail =>
      by_cases hb92 : b = 92
      · subst hb92
        cases tail with
        | nil => simp [WfContent] at hwf
        | cons cc tail2 =>
          simp only [WfContent, Bool.and_eq_true] at hwf
          obtain ⟨hcc, hwf2⟩ := hwf
          have hlen2 : tail2.length ≤ n := by
            simp only [List.length_cons] at hlen
            omega
          have ihx := ih tail2 hlen2 hwf2
          simp only [escCode, Bool.or_eq_true, beq_iff_eq] at hcc
          simp only [decodeEsc, specDecode, escDecodeChar, ihx]
          split_ifs <;> simp_all
      · by_cases hb34 : b = 34
        · subst hb34
          simp [WfContent] at hwf
        · have hwf2 : WfContent tail = true := by
            rwa [WfContent_cons_other tail hb92 hb34] at hwf
          have hlen2 : tail.length ≤ n := by
            simp only [List.length_cons] at hlen
            omega
          have ihx := ih tail hlen2 hwf2
          cases tail with
          | nil => simp [decodeEsc, specDecode, hb92]
          | cons c2 t2 => simp [decodeEsc, specDecode, hb92, ihx]

/-- Content with no backslash and no quote byte is well formed. -/
theorem WfContent_of_no_esc : ∀ content : List Nat, (∀ x ∈ content, x ≠ 92) →
    (∀ x ∈ content, x ≠ 34) → WfContent content = true := by
  intro content
  induction content with
  | nil => intro _ _; rfl
  | cons b tail ih =>
    intro h92 h34
    rw [WfContent_cons_other tail (h92 b (by simp)) (h34 b (by simp))]
    exact ih (fun x hx => h92 x (by simp [hx])) (fun x hx => h34 x (by simp [hx]))

/-- Content with no backslash contains no escape sequence. -/
theorem hasEsc_of_no92 : ∀ content : List Nat, (∀ x ∈ content, x ≠ 92) →
    hasEsc content = false := by
  intro content
  induction content with
  | nil => intro _; rfl
  | cons b tail ih =>
    intro h92
    rw [hasEsc_cons_other tail (h92 b (by simp))]
    exact ih fun x hx => h92 x (by simp [hx])

/-- Full behavior of lex_string on a well-formed literal: the opening
quote, well-formed content, the closing quote.  The token borrows the
content when no escape occurred and owns the decoded buffer otherwise;
the cursor advances over the literal. -/
theorem lex_string_wf (l c : Nat) (content rest : List Nat)
    (hwf : WfContent content = true) (hutf : validUtf8 content = true) :
    lex_string ⟨l, c, 34 :: (content ++ 34 :: rest)⟩ =
      .ok (⟨⟨l, c⟩, .Literal (.String
          (if hasEsc content then .Owned (specDecode content)
           else .Borrowed content))⟩,
        ⟨l + countNl content, colAfter (c + 1) content + 1, rest⟩) := by
  have hscan := scanStr_wf content.length content le_rfl hwf 0 0 (c + 1) false rest
  have htake : (content ++ 34 :: rest).take content.length = content :=
    List.take_left content (34 :: rest)
  have hdrop : (content ++ 34 :: rest).drop (content.length + 1) = rest := by
    rw [← List.drop_drop, List.drop_left]
    rfl
  simp only [lex_string, hscan, Nat.zero_add, Bool.false_or, htake, hdrop, hutf,
    if_true]
  by_cases he : hasEsc content
  · rw [if_pos he, if_pos he]
    rw [decodeEsc_wf content.length content le_rfl hwf]
    rfl
  · rw [if_neg he, if_neg he]

/-! ### Claim theorems -/

/-- C1: the claim states that `Lexer::lex` terminates and returns a
recoverable result (Ok or a LexError) on every input and never panics.
The code violates this: on the two-byte input `"\` (a quote followed by a
backslash at end of input), the string scan executes `idx += 1` after
seeing the backslash and then evaluates `self.input[idx]` with
`idx == len`, an out-of-bounds index that aborts the process.  A plain
unterminated string such as `"ab` does return the recoverable error, as
the second conjunct shows. -/
theorem c1_quote_backslash_eof_aborts :
    lex [34, 92] = .panic ∧ lex [34, 97, 98] = .err ⟨⟩ :=
  ⟨rfl, rfl⟩

/-- C2 counterexample: the claim states that every failure identifies
which of the six error kinds occurred together with the offending byte
and position.  In the code `LexError` is a unit struct with no fields:
an unterminated string literal (`"ab`, spec kind UnterminatedString) and
an unrecognized byte (0x01, spec kind UnrecognizedCharacter) produce
identical error values, so the returned error identifies neither the
kind nor the byte nor the position. -/
theorem c2_error_value_indistinguishable :
    lex [34, 97, 98] = .err ⟨⟩ ∧ lex [1] = .err ⟨⟩ ∧ lex [34, 97, 98] = lex [1] :=
  ⟨rfl, rfl, rfl⟩

/-- C2 amended: whenever `Lexer::lex` fails, the returned error is the
single unit value `LexError {}`, which carries no error kind, offending
byte, or position information. -/
theorem c2_amended_unit_error :
    ∀ (input : List Nat) (e : LexError), lex input = .err e → e = ⟨⟩ := by
  intro _ e _
  cases e
  rfl

theorem c2_amended_unit_error_witness : (⟨⟩ : LexError) = ⟨⟩ :=
  c2_amended_unit_error [1] ⟨⟩ rfl

/-- C10: the three-byte input `'''` lexes successfully to a single Char
token whose value is the single-quote character (byte 39): the character
scanner accepts an unescaped quote byte as the literal character when the
next byte closes the literal. -/
theorem c10_quote_char_literal :
    lex [39, 39, 39] = .ok [⟨⟨1, 1⟩, .Literal (.Char 39)⟩] :=
  rfl

/-- C6: the symbol scanner resolves `>` with up to two bytes of lookahead,
longest match first: `>>=` is a single ShrEqual token consuming three
bytes (never split into `>`, `>`, `=`); `>>` not followed by `=` is Shr;
`>=` is GreaterThanEqual; a `>` whose lookahead matches neither falls
back to GreaterThan; and the whole input `>>=` lexes to exactly one
token. -/
theorem c6_longest_match_shift_assign :
    (∀ l c rest, try_lex_symbol ⟨l, c, 62 :: 62 :: 61 :: rest⟩ =
      .ok (⟨⟨l, c⟩, .Symbol .ShrEqual⟩, ⟨l, c + 3, rest⟩)) ∧
    (∀ l c rest2, rest2.head? ≠ some 61 →
      try_lex_symbol ⟨l, c, 62 :: 62 :: rest2⟩ =
        .ok (⟨⟨l, c⟩, .Symbol .Shr⟩, ⟨l, c + 2, rest2⟩)) ∧
    (∀ l c rest, try_lex_symbol ⟨l, c, 62 :: 61 :: rest⟩ =
      .ok (⟨⟨l, c⟩, .Symbol .GreaterThanEqual⟩, ⟨l, c + 2, rest⟩)) ∧
    (∀ l c rest, rest.head? ≠ some 61 → rest.head? ≠ some 62 →
      try_lex_symbol ⟨l, c, 62 :: rest⟩ =
        .ok (⟨⟨l, c⟩, .Symbol .GreaterThan⟩, ⟨l, c + 1, rest⟩)) ∧
    lex [62, 62, 61] = .ok [⟨⟨1, 1⟩, .Symbol .ShrEqual⟩] := by
  refine ⟨fun l c rest => rfl, ?_, fun l c rest => rfl, ?_, rfl⟩
  · intro l c rest2 h
    simp [try_lex_symbol, symbolLookup, h]
  · intro l c rest h1 h2
    simp [try_lex_symbol, symbolLookup, h1, h2]

theorem c6_longest_match_shift_assign_witness :
    try_lex_symbol ⟨1, 1, [62, 62, 97]⟩ =
      .ok (⟨⟨1, 1⟩, .Symbol .Shr⟩, ⟨1, 3, [97]⟩) ∧
    try_lex_symbol ⟨1, 1, [62, 97]⟩ =
      .ok (⟨⟨1, 1⟩, .Symbol .GreaterThan⟩, ⟨1, 2, [97]⟩) :=
  ⟨c6_longest_match_shift_assign.2.1 1 1 [97] (by decide),
   c6_longest_match_shift_assign.2.2.2.1 1 1 [97] (by decide) (by decide)⟩

/-- C7: the number scanner attempts an integer parse first (`12` becomes
an Int token, `1.5` falls back to Float), and when both the i64 parse and
the f64 parse reject the scanned text it fails with the lex error; in
particular the scanned text `1-2` (the maximal run over the number
charset, which admits interior `-`) is rejected by both parses, and the
input `1-2` fails instead of being accepted as tokens with a wrong
value. -/
theorem c7_number_parse_order :
    lex [49, 45, 50] = .err ⟨⟩ ∧
    parseI64 [49, 45, 50] = none ∧
    parseF64accepts [49, 45, 50] = false ∧
    (∀ s : LexState, parseI64 (s.input.takeWhile isNumChar) = none →
      parseF64accepts (s.input.takeWhile isNumChar) = false →
      lex_number s = .err ⟨⟩) ∧
    lex [49, 50] = .ok [⟨⟨1, 1⟩, .Literal (.Int 12)⟩] ∧
    lex [49, 46, 53] = .ok [⟨⟨1, 1⟩, .Literal (.Float [49, 46, 53])⟩] := by
  refine ⟨rfl, rfl, rfl, ?_, rfl, rfl⟩
  intro s h1 h2
  have hascii : ∀ b ∈ s.input.takeWhile isNumChar, b < 128 := by
    intro b hb
    exact isNumChar_lt_128 (List.mem_takeWhile_imp hb)
  simp [lex_number, validUtf8_of_ascii hascii, h1, h2]

theorem c7_number_parse_order_witness :
    lex_number ⟨1, 1, [49, 45, 50]⟩ = .err ⟨⟩ :=
  c7_number_parse_order.2.2.2.1 ⟨1, 1, [49, 45, 50]⟩ rfl rfl

/-- C8: a string literal containing escape sequences lexes to a String
token owning a freshly decoded buffer in which each two-character escape
pair is replaced by its single decoded character (the specification-side
decoder `specDecode`), with no escape syntax remaining; in particular
`"a\tb"` (bytes 34, 97, 92, 116, 98, 34) lexes to one String token whose
decoded value is `a`, TAB, `b` (bytes 97, 9, 98). -/
theorem c8_escape_decoding :
    lex [34, 97, 92, 116, 98, 34] =
      .ok [⟨⟨1, 1⟩, .Literal (.String (.Owned [97, 9, 98]))⟩] ∧
    (∀ (l c : Nat) (content rest : List Nat), WfContent content = true →
      validUtf8 content = true → hasEsc content = true →
      lex_string ⟨l, c, 34 :: (content ++ 34 :: rest)⟩ =
        .ok (⟨⟨l, c⟩, .Literal (.String (.Owned (specDecode content)))⟩,
          ⟨l + countNl content, colAfter (c + 1) content + 1, rest⟩)) := by
  refine ⟨rfl, ?_⟩
  intro l c content rest hwf hutf he
  rw [lex_string_wf l c content rest hwf hutf, if_pos he]

theorem c8_escape_decoding_witness :
    lex_string ⟨2, 5, 34 :: ([97, 92, 116, 98] ++ 34 :: [120])⟩ =
      .ok (⟨⟨2, 5⟩, .Literal (.String (.Owned (specDecode [97, 92, 116, 98])))⟩,
        ⟨2 + countNl [97, 92, 116, 98], colAfter (5 + 1) [97, 92, 116, 98] + 1,
          [120]⟩) :=
  c8_escape_decoding.2 2 5 [97, 92, 116, 98] [120] (by decide) (by decide)
    (by decide)

/-- C9: a string literal containing no escape sequence lexes to a String
token whose text is the Borrowed variant holding exactly the content
bytes between the quotes — the direct view of that span of the source —
and `"ab"` yields a String token borrowing the span `ab`. -/
theorem c9_borrowed_no_escape :
    lex [34, 97, 98, 34] =
      .ok [⟨⟨1, 1⟩, .Literal (.String (.Borrowed [97, 98]))⟩] ∧
    (∀ (l c : Nat) (content rest : List Nat), (∀ x ∈ content, x ≠ 92) →
      (∀ x ∈ content, x ≠ 34) → validUtf8 content = true →
      lex_string ⟨l, c, 34 :: (content ++ 34 :: rest)⟩ =
        .ok (⟨⟨l, c⟩, .Literal (.String (.Borrowed content))⟩,
          ⟨l + countNl content, colAfter (c + 1) content + 1, rest⟩)) := by
  refine ⟨rfl, ?_⟩
  intro l c content rest h92 h34 hutf
  rw [lex_string_wf l c content rest (WfContent_of_no_esc content h92 h34) hutf,
    if_neg (by simp [hasEsc_of_no92 content h92])]

theorem c9_borrowed_no_escape_witness :
    lex_string ⟨3, 7, 34 :: ([97, 98] ++ 34 :: [])⟩ =
      .ok (⟨⟨3, 7⟩, .Literal (.String (.Borrowed [97, 98]))⟩,
        ⟨3 + countNl [97, 98], colAfter (7 + 1) [97, 98] + 1, []⟩) :=
  c9_borrowed_no_escape.2 3 7 [97, 98] [] (by decide) (by decide) (by decide)

/-- C4: for a maximal run of word bytes starting with a letter or
underscore (the run is followed by end of input or a non-word byte), the
word scanner consumes exactly the run regardless of what follows and
classifies it with the fixed keyword table: a run equal to one of the
sixteen reserved words becomes a Keyword token, never an Identifier, and
any other run becomes an Identifier token carrying the run itself. -/
theorem c4_keywords_never_identifier (l c b : Nat) (run rest : List Nat)
    (hb : isWordStart b = true)
    (hall : ∀ x ∈ b :: run, isWordChar x = true)
    (hrest : ∀ r ∈ rest.head?, isWordChar r = false) :
    lex_word ⟨l, c, (b :: run) ++ rest⟩ =
      .ok (⟨⟨l, c⟩, kindOfWord (b :: run)⟩, ⟨l, c + (b :: run).length, rest⟩) ∧
    ((b :: run) ∈ keywordTable → ∃ k, kindOfWord (b :: run) = .Keyword k) ∧
    ((b :: run) ∉ keywordTable → kindOfWord (b :: run) = .Identifier ⟨b :: run⟩) := by
  refine ⟨?_, ?_, ?_⟩
  · have ht : List.takeWhile isWordChar (b :: (run ++ rest)) = b :: run := by
      rw [← List.cons_append, takeWhile_append_of_all _ _ _ hall,
        takeWhile_head_false _ _ hrest, List.append_nil]
    have hd : List.dropWhile isWordChar (b :: (run ++ rest)) = rest := by
      rw [← List.cons_append, dropWhile_append_of_all _ _ _ hall,
        dropWhile_head_false _ _ hrest]
    have hv : validUtf8 (b :: run) = true :=
      validUtf8_of_ascii fun x hx => isWordChar_lt_128 (hall x hx)
    simp [lex_word, ht, hd, hv]
  · intro hmem
    simp only [keywordTable, List.mem_cons, List.not_mem_nil, or_false] at hmem
    rcases hmem with h | h | h | h | h | h | h | h | h | h | h | h | h | h | h | h
    · exact ⟨.Import, by rw [h]; rfl⟩
    · exact ⟨.Struct, by rw [h]; rfl⟩
    · exact ⟨.Fn, by rw [h]; rfl⟩
    · exact ⟨.Enum, by rw [h]; rfl⟩
    · exact ⟨.Mod, by rw [h]; rfl⟩
    · exact ⟨.Const, by rw [h]; rfl⟩
    · exact ⟨.Let, by rw [h]; rfl⟩
    · exact ⟨.If, by rw [h]; rfl⟩
    · exact ⟨.Else, by rw [h]; rfl⟩
    · exact ⟨.For, by rw [h]; rfl⟩
    · exact ⟨.In, by rw [h]; rfl⟩
    · exact ⟨.While, by rw [h]; rfl⟩
    · exact ⟨.Return, by rw [h]; rfl⟩
    · exact ⟨.Break, by rw [h]; rfl⟩
    · exact ⟨.Continue, by rw [h]; rfl⟩
    · exact ⟨.Print, by rw [h]; rfl⟩
  · intro hnmem
    simp only [keywordTable, List.mem_cons, List.not_mem_nil, or_false, not_or] at hnmem
    obtain ⟨h1, h2, h3, h4, h5, h6, h7, h8, h9, h10, h11, h12, h13, h14, h15, h16⟩ :=
      hnmem
    simp [kindOfWord, h1, h2, h3, h4, h5, h6, h7, h8, h9, h10, h11, h12, h13, h14,
      h15, h16]

theorem c4_keywords_never_identifier_witness :
    lex_word ⟨1, 1, [108, 101, 116, 43]⟩ =
      .ok (⟨⟨1, 1⟩, .Keyword .Let⟩, ⟨1, 4, [43]⟩) ∧
    lex_word ⟨1, 1, [108, 101, 116, 115]⟩ =
      .ok (⟨⟨1, 1⟩, .Identifier ⟨[108, 101, 116, 115]⟩⟩, ⟨1, 5, []⟩) := by
  constructor
  · have h := c4_keywords_never_identifier 1 1 108 [101, 116] [43] (by decide)
      (by decide) (by decide)
    exact h.1
  · have h := c4_keywords_never_identifier 1 1 108 [101, 116, 115] [] (by decide)
      (by decide) (by decide)
    exact h.1

/-- C5: the dispatcher's newline branch increments the line and resets
the column to 1, its non-newline whitespace branch advances the column by
one for the single consumed byte, the word scanner advances the column by
exactly the number of bytes it consumed, and consequently the input
`let\nx = 1;` reports the identifier `x` at line 2, column 1 (with the
remaining tokens at line 2, columns 3, 5 and 6). -/
theorem c5_position_tracking :
    (∀ fuel l c rest, lexLoop (fuel + 1) ⟨l, c, 10 :: rest⟩ =
      lexLoop fuel ⟨l + 1, 1, rest⟩) ∧
    (∀ fuel l c w rest, isWs w = true → w ≠ 10 →
      lexLoop (fuel + 1) ⟨l, c, w :: rest⟩ = lexLoop fuel ⟨l, c + 1, rest⟩) ∧
    (∀ l c input t s', lex_word ⟨l, c, input⟩ = .ok (t, s') →
      s'.cur_line = l ∧ s'.cur_col = c + (input.takeWhile isWordChar).length) ∧
    lex [108, 101, 116, 10, 120, 32, 61, 32, 49, 59] =
      .ok [⟨⟨1, 1⟩, .Keyword .Let⟩, ⟨⟨2, 1⟩, .Identifier ⟨[120]⟩⟩,
        ⟨⟨2, 3⟩, .Symbol .Equal⟩, ⟨⟨2, 5⟩, .Literal (.Int 1)⟩,
        ⟨⟨2, 6⟩, .Symbol .SemiColon⟩] := by
  refine ⟨fun fuel l c rest => rfl, ?_, ?_, rfl⟩
  · intro fuel l c w rest hw hne
    rcases isWs_cases hw with rfl | rfl | rfl | rfl | rfl
    · rfl
    · rfl
    · exact absurd rfl hne
    · rfl
    · rfl
  · intro l c input t s' h
    simp only [lex_word] at h
    split at h
    · cases h
      exact ⟨rfl, rfl⟩
    · cases h

theorem c5_position_tracking_witness :
    lexLoop 3 ⟨1, 5, [10, 120]⟩ = lexLoop 2 ⟨2, 1, [120]⟩ ∧
    lexLoop 3 ⟨1, 5, [9, 120]⟩ = lexLoop 2 ⟨1, 6, [120]⟩ ∧
    ((⟨1, 4, []⟩ : LexState).cur_line = 1 ∧
      (⟨1, 4, []⟩ : LexState).cur_col = 1 + ([108, 101, 116].takeWhile isWordChar).length) := by
  refine ⟨c5_position_tracking.1 2 1 5 [120],
    c5_position_tracking.2.1 2 1 5 9 [120] (by decide) (by decide), ?_⟩
  exact c5_position_tracking.2.2.1 1 1 [108, 101, 116] ⟨⟨1, 1⟩, .Keyword .Let⟩
    ⟨1, 4, []⟩ rfl

/-! ### Coverage and ordering lemmas (claim C3) -/

theorem posLe_of_posLt {p q : Position} (h : posLt p q) : posLe p q := by
  rcases h with h | ⟨e, h⟩
  · exact Or.inl h
  · exact Or.inr ⟨e, Nat.le_of_lt h⟩

theorem length_takeWhile_le (p : Nat → Bool) :
    ∀ l : List Nat, (l.takeWhile p).length ≤ l.length := by
  intro l
  induction l with
  | nil => simp
  | cons a tl ih =>
    by_cases ha : p a
    · simp only [List.takeWhile_cons_of_pos ha, List.length_cons]
      omega
    · simp [List.takeWhile_cons, ha]

/-- One-step unfolding of the dispatch loop: a word-start byte runs the
word scanner. -/
theorem lexLoop_step_word (fuel l c ch : Nat) (rest : List Nat)
    (hch : isWordStart ch = true) :
    lexLoop (fuel + 1) ⟨l, c, ch :: rest⟩ =
      stepBind (lex_word ⟨l, c, ch :: rest⟩) (lexLoop fuel) := by
  rw [lexLoop]
  dsimp only
  rw [if_pos hch]
  rfl

/-- One-step unfolding of the dispatch loop: a digit byte runs the number
scanner. -/
theorem lexLoop_step_number (fuel l c ch : Nat) (rest : List Nat)
    (h1 : isWordStart ch = false) (h2 : isDigitB ch = true) :
    lexLoop (fuel + 1) ⟨l, c, ch :: rest⟩ =
      stepBind (lex_number ⟨l, c, ch :: rest⟩) (lexLoop fuel) := by
  rw [lexLoop]
  dsimp only
  rw [if_neg (by simp [h1]), if_pos h2]
  rfl

/-- One-step unfolding of the dispatch loop: a quote byte runs the string
scanner. -/
theorem lexLoop_step_string (fuel l c : Nat) (rest : List Nat) :
    lexLoop (fuel + 1) ⟨l, c, 34 :: rest⟩ =
      stepBind (lex_string ⟨l, c, 34 :: rest⟩) (lexLoop fuel) :=
  rfl

/-- One-step unfolding of the dispatch loop: a single quote byte runs the
character scanner. -/
theorem lexLoop_step_char (fuel l c : Nat) (rest : List Nat) :
    lexLoop (fuel + 1) ⟨l, c, 39 :: rest⟩ =
      stepBind (lex_character ⟨l, c, 39 :: rest⟩) (lexLoop fuel) :=
  rfl

/-- One-step unfolding of the dispatch loop: a newline increments the
line and resets the column. -/
theorem lexLoop_step_newline (fuel l c : Nat) (rest : List Nat) :
    lexLoop (fuel + 1) ⟨l, c, 10 :: rest⟩ = lexLoop fuel ⟨l + 1, 1, rest⟩ :=
  rfl

/-- One-step unfolding of the dispatch loop: non-newline whitespace
advances the column by one. -/
theorem lexLoop_step_ws (fuel l c w : Nat) (rest : List Nat)
    (hw : isWs w = true) (hne : w ≠ 10) :
    lexLoop (fuel + 1) ⟨l, c, w :: rest⟩ = lexLoop fuel ⟨l, c + 1, rest⟩ := by
  rcases isWs_cases hw with rfl | rfl | rfl | rfl | rfl
  · rfl
  · rfl
  · exact absurd rfl hne
  · rfl
  · rfl

/-- One-step unfolding of the dispatch loop: any other byte runs the
symbol scanner. -/
theorem lexLoop_step_symbol (fuel l c ch : Nat) (rest : List Nat)
    (h1 : isWordStart ch = false) (h2 : isDigitB ch = false) (h3 : ch ≠ 34)
    (h4 : ch ≠ 39) (h5 : ch ≠ 10) (h6 : isWs ch = false) :
    lexLoop (fuel + 1) ⟨l, c, ch :: rest⟩ =
      stepBind (try_lex_symbol ⟨l, c, ch :: rest⟩) (lexLoop fuel) := by
  rw [lexLoop]
  dsimp only
  rw [if_neg (by simp [h1]), if_neg (by simp [h2]), if_neg (by simp [h3]),
    if_neg (by simp [h4]), if_neg (by simp [h5]), if_neg (by simp [h6])]
  rfl

/-- Inversion of the token-branch control flow. -/
theorem stepBind_ok {r : Res (Token × LexState)}
    {cont : LexState → Res (List Token)} {ts : List Token}
    (h : stepBind r cont = .ok ts) :
    ∃ t s' ts', r = .ok (t, s') ∧ cont s' = .ok ts' ∧ ts = t :: ts' := by
  cases r with
  | ok p =>
    obtain ⟨t, s'⟩ := p
    cases hc : cont s' with
    | ok ts' =>
      refine ⟨t, s', ts', rfl, hc, ?_⟩
      simp only [stepBind, hc] at h
      simp only [Res.ok.injEq] at h
      exact h.symm
    | err e => simp [stepBind, hc] at h
    | panic => simp [stepBind, hc] at h
  | err e => simp [stepBind] at h
  | panic => simp [stepBind] at h

/-- A successful word scan from a word byte consumes the maximal word run
and advances the column by its length. -/
theorem lex_word_scanStep {l c ch : Nat} {tl : List Nat} {t : Token}
    {s' : LexState} (hch : isWordChar ch = true)
    (h : lex_word ⟨l, c, ch :: tl⟩ = .ok (t, s')) :
    ScanStep l c (ch :: tl) t s' := by
  simp only [lex_word] at h
  split at h
  · simp only [Res.ok.injEq, Prod.mk.injEq] at h
    obtain ⟨ht, hs⟩ := h
    subst ht
    subst hs
    refine ⟨((ch :: tl).takeWhile isWordChar).length, ?_, ?_, rfl, ?_,
      Or.inl ⟨rfl, rfl⟩⟩
    · rw [List.takeWhile_cons_of_pos hch]
      simp
    · exact length_takeWhile_le _ _
    · exact dropWhile_eq_drop_takeWhile _ _
  · exact absurd h (by simp)

/-- A successful number scan from a digit byte consumes the maximal
number-charset run and advances the column by its length. -/
theorem lex_number_scanStep {l c ch : Nat} {tl : List Nat} {t : Token}
    {s' : LexState} (hch : isNumChar ch = true)
    (h : lex_number ⟨l, c, ch :: tl⟩ = .ok (t, s')) :
    ScanStep l c (ch :: tl) t s' := by
  simp only [lex_number] at h
  split at h
  · split at h
    · simp only [Res.ok.injEq, Prod.mk.injEq] at h
      obtain ⟨ht, hs⟩ := h
      subst ht
      subst hs
      refine ⟨((ch :: tl).takeWhile isNumChar).length, ?_, ?_, rfl, ?_,
        Or.inl ⟨rfl, rfl⟩⟩
      · rw [List.takeWhile_cons_of_pos hch]
        simp
      · exact length_takeWhile_le _ _
      · exact dropWhile_eq_drop_takeWhile _ _
    · split at h
      · simp only [Res.ok.injEq, Prod.mk.injEq] at h
        obtain ⟨ht, hs⟩ := h
        subst ht
        subst hs
        refine ⟨((ch :: tl).takeWhile isNumChar).length, ?_, ?_, rfl, ?_,
          Or.inl ⟨rfl, rfl⟩⟩
        · rw [List.takeWhile_cons_of_pos hch]
          simp
        · exact length_takeWhile_le _ _
        · exact dropWhile_eq_drop_takeWhile _ _
      · exact absurd h (by simp)
  · exact absurd h (by simp)

/-- A successful character scan consumes three bytes (four with an
escape) and advances the column by the same count. -/
theorem lex_character_scanStep {l c : Nat} {input : List Nat} {t : Token}
    {s' : LexState} (h : lex_character ⟨l, c, input⟩ = .ok (t, s')) :
    ScanStep l c input t s' := by
  rcases input with _ | ⟨b0, r1⟩
  · simp [lex_character] at h
  by_cases hb0 : b0 = 39
  · subst hb0
    rcases r1 with _ | ⟨b1, r2⟩
    · simp [lex_character] at h
    by_cases hb1 : b1 = 92
    · subst hb1
      rcases r2 with _ | ⟨b2, r3⟩
      · simp [lex_character] at h
      cases hce : charEscape b2 with
      | none => simp [lex_character, hce] at h
      | some d =>
        rcases r3 with _ | ⟨b3, r4⟩
        · simp [lex_character, hce] at h
        by_cases hb3 : b3 = 39
        · subst hb3
          simp only [lex_character, hce] at h
          simp only [Res.ok.injEq, Prod.mk.injEq] at h
          obtain ⟨ht, hs⟩ := h
          subst ht
          subst hs
          exact ⟨4, by omega, by simp, rfl, rfl, Or.inl ⟨rfl, rfl⟩⟩
        · simp [lex_character, hce, hb3] at h
    · rcases r2 with _ | ⟨b2, r3⟩
      · simp [lex_character, hb1] at h
      by_cases hb2 : b2 = 39
      · subst hb2
        simp only [lex_character] at h
        simp only [Res.ok.injEq, Prod.mk.injEq] at h
        obtain ⟨ht, hs⟩ := h
        subst ht
        subst hs
        exact ⟨3, by omega, by simp, rfl, rfl, Or.inl ⟨rfl, rfl⟩⟩
      · simp [lex_character, hb1, hb2] at h
  · simp [lex_character, hb0] at h

/-- A list with a first element is nonempty. -/
theorem length_pos_of_head? {xs : List Nat} {x : Nat} (h : xs.head? = some x) :
    1 ≤ xs.length := by
  cases xs with
  | nil => simp at h
  | cons a t => simp

/-- A list whose tail has a first element has at least two elements. -/
theorem length_ge2_of_tail_head? {xs : List Nat} {x : Nat}
    (h : xs.tail.head? = some x) : 2 ≤ xs.length := by
  cases xs with
  | nil => simp at h
  | cons a t =>
    cases t with
    | nil => simp at h
    | cons b t2 => simp

/-- The symbol table only returns consumption counts covered by the
available lookahead. -/
theorem symbolLookup_bounds {ch : Nat} {rest : List Nat} {sym : Symbol}
    {k : Nat} (h : symbolLookup ch rest = some (sym, k)) :
    1 ≤ k ∧ k ≤ rest.length + 1 := by
  delta symbolLookup at h
  by_cases hc91 : ch = 91
  · rw [if_pos hc91] at h
    simp only [Option.some.injEq, Prod.mk.injEq] at h
    omega
  · rw [if_neg hc91] at h
    by_cases hc93 : ch = 93
    · rw [if_pos hc93] at h
      simp only [Option.some.injEq, Prod.mk.injEq] at h
      omega
    · rw [if_neg hc93] at h
      by_cases hc40 : ch = 40
      · rw [if_pos hc40] at h
        simp only [Option.some.injEq, Prod.mk.injEq] at h
        omega
      · rw [if_neg hc40] at h
        by_cases hc41 : ch = 41
        · rw [if_pos hc41] at h
          simp only [Option.some.injEq, Prod.mk.injEq] at h
          omega
        · rw [if_neg hc41] at h
          by_cases hc123 : ch = 123
          · rw [if_pos hc123] at h
            simp only [Option.some.injEq, Prod.mk.injEq] at h
            omega
          · rw [if_neg hc123] at h
            by_cases hc125 : ch = 125
            · rw [if_pos hc125] at h
              simp only [Option.some.injEq, Prod.mk.injEq] at h
              omega
            · rw [if_neg hc125] at h
              by_cases hc59 : ch = 59
              · rw [if_pos hc59] at h
                simp only [Option.some.injEq, Prod.mk.injEq] at h
                omega
              · rw [if_neg hc59] at h
                by_cases hc46 : ch = 46
                · rw [if_pos hc46] at h
                  simp only [Option.some.injEq, Prod.mk.injEq] at h
                  omega
                · rw [if_neg hc46] at h
                  by_cases hc44 : ch = 44
                  · rw [if_pos hc44] at h
                    simp only [Option.some.injEq, Prod.mk.injEq] at h
                    omega
                  · rw [if_neg hc44] at h
                    by_cases hc58 : ch = 58
                    · rw [if_pos hc58] at h
                      by_cases hx0 : rest.head? = some 58
                      · rw [if_pos hx0] at h
                        have hl := length_pos_of_head? hx0
                        simp only [Option.some.injEq, Prod.mk.injEq] at h
                        omega
                      · rw [if_neg hx0] at h
                        simp only [Option.some.injEq, Prod.mk.injEq] at h
                        omega
                    · rw [if_neg hc58] at h
                      by_cases hc43 : ch = 43
                      · rw [if_pos hc43] at h
                        by_cases hx0 : rest.head? = some 61
                        · rw [if_pos hx0] at h
                          have hl := length_pos_of_head? hx0
                          simp only [Option.some.injEq, Prod.mk.injEq] at h
                          omega
                        · rw [if_neg hx0] at h
                          simp only [Option.some.injEq, Prod.mk.injEq] at h
                          omega
                      · rw [if_neg hc43] at h
                        by_cases hc45 : ch = 45
                        · rw [if_pos hc45] at h
                          by_cases hx0 : rest.head? = some 61
                          · rw [if_pos hx0] at h
                            have hl := length_pos_of_head? hx0
                            simp only [Option.some.injEq, Prod.mk.injEq] at h
                            omega
                          · rw [if_neg hx0] at h
                            by_cases hx1 : rest.head? = some 62
                            · rw [if_pos hx1] at h
                              have hl := length_pos_of_head? hx1
                              simp only [Option.some.injEq, Prod.mk.injEq] at h
                              omega
                            · rw [if_neg hx1] at h
                              simp only [Option.some.injEq, Prod.mk.injEq] at h
                              omega
                        · rw [if_neg hc45] at h
                          by_cases hc42 : ch = 42
                          · rw [if_pos hc42] at h
                            by_cases hx0 : rest.head? = some 61
                            · rw [if_pos hx0] at h
                              have hl := length_pos_of_head? hx0
                              simp only [Option.some.injEq, Prod.mk.injEq] at h
                              omega
                            · rw [if_neg hx0] at h
                              simp only [Option.some.injEq, Prod.mk.injEq] at h
                              omega
                          · rw [if_neg hc42] at h
                            by_cases hc47 : ch = 47
                            · rw [if_pos hc47] at h
                              by_cases hx0 : rest.head? = some 61
                              · rw [if_pos hx0] at h
                                have hl := length_pos_of_head? hx0
                                simp only [Option.some.injEq, Prod.mk.injEq] at h
                                omega
                              · rw [if_neg hx0] at h
                                simp only [Option.some.injEq, Prod.mk.injEq] at h
                                omega
                            · rw [if_neg hc47] at h
                              by_cases hc62 : ch = 62
                              · rw [if_pos hc62] at h
                                by_cases hx0 : rest.head? = some 61
                                · rw [if_pos hx0] at h
                                  have hl := length_pos_of_head? hx0
                                  simp only [Option.some.injEq, Prod.mk.injEq] at h
                                  omega
                                · rw [if_neg hx0] at h
                                  by_cases hx1 : rest.head? = some 62
                                  · rw [if_pos hx1] at h
                                    by_cases hy1 : rest.tail.head? = some 61
                                    · rw [if_pos hy1] at h
                                      have hl := length_ge2_of_tail_head? hy1
                                      simp only [Option.some.injEq, Prod.mk.injEq] at h
                                      omega
                                    · rw [if_neg hy1] at h
                                      have hl := length_pos_of_head? hx1
                                      simp only [Option.some.injEq, Prod.mk.injEq] at h
                                      omega
                                  · rw [if_neg hx1] at h
                                    simp only [Option.some.injEq, Prod.mk.injEq] at h
                                    omega
                              · rw [if_neg hc62] at h
                                by_cases hc60 : ch = 60
                                · rw [if_pos hc60] at h
                                  by_cases hx0 : rest.head? = some 61
                                  · rw [if_pos hx0] at h
                                    have hl := length_pos_of_head? hx0
                                    simp only [Option.some.injEq, Prod.mk.injEq] at h
                                    omega
                                  · rw [if_neg hx0] at h
                                    by_cases hx1 : rest.head? = some 60
                                    · rw [if_pos hx1] at h
                                      by_cases hy1 : rest.tail.head? = some 61
                                      · rw [if_pos hy1] at h
                                        have hl := length_ge2_of_tail_head? hy1
                                        simp only [Option.some.injEq, Prod.mk.injEq] at h
                                        omega
                                      · rw [if_neg hy1] at h
                                        have hl := length_pos_of_head? hx1
                                        simp only [Option.some.injEq, Prod.mk.injEq] at h
                                        omega
                                    · rw [if_neg hx1] at h
                                      simp only [Option.some.injEq, Prod.mk.injEq] at h
                                      omega
                                · rw [if_neg hc60] at h
                                  by_cases hc124 : ch = 124
                                  · rw [if_pos hc124] at h
                                    by_cases hx0 : rest.head? = some 124
                                    · rw [if_pos hx0] at h
                                      have hl := length_pos_of_head? hx0
                                      simp only [Option.some.injEq, Prod.mk.injEq] at h
                                      omega
                                    · rw [if_neg hx0] at h
                                      by_cases hx1 : rest.head? = some 61
                                      · rw [if_pos hx1] at h
                                        have hl := length_pos_of_head? hx1
                                        simp only [Option.some.injEq, Prod.mk.injEq] at h
                                        omega
                                      · rw [if_neg hx1] at h
                                        simp only [Option.some.injEq, Prod.mk.injEq] at h
                                        omega
                                  · rw [if_neg hc124] at h
                                    by_cases hc38 : ch = 38
                                    · rw [if_pos hc38] at h
                                      by_cases hx0 : rest.head? = some 38
                                      · rw [if_pos hx0] at h
                                        have hl := length_pos_of_head? hx0
                                        simp only [Option.some.injEq, Prod.mk.injEq] at h
                                        omega
                                      · rw [if_neg hx0] at h
                                        by_cases hx1 : rest.head? = some 61
                                        · rw [if_pos hx1] at h
                                          have hl := length_pos_of_head? hx1
                                          simp only [Option.some.injEq, Prod.mk.injEq] at h
                                          omega
                                        · rw [if_neg hx1] at h
                                          simp only [Option.some.injEq, Prod.mk.injEq] at h
                                          omega
                                    · rw [if_neg hc38] at h
                                      by_cases hc94 : ch = 94
                                      · rw [if_pos hc94] at h
                                        by_cases hx0 : rest.head? = some 61
                                        · rw [if_pos hx0] at h
                                          have hl := length_pos_of_head? hx0
                                          simp only [Option.some.injEq, Prod.mk.injEq] at h
                                          omega
                                        · rw [if_neg hx0] at h
                                          simp only [Option.some.injEq, Prod.mk.injEq] at h
                                          omega
                                      · rw [if_neg hc94] at h
                                        by_cases hc61 : ch = 61
                                        · rw [if_pos hc61] at h
                                          by_cases hx0 : rest.head? = some 61
                                          · rw [if_pos hx0] at h
                                            have hl := length_pos_of_head? hx0
                                            simp only [Option.some.injEq, Prod.mk.injEq] at h
                                            omega
                                          · rw [if_neg hx0] at h
                                            by_cases hx1 : rest.head? = some 62
                                            · rw [if_pos hx1] at h
                                              have hl := length_pos_of_head? hx1
                                              simp only [Option.some.injEq, Prod.mk.injEq] at h
                                              omega
                                            · rw [if_neg hx1] at h
                                              simp only [Option.some.injEq, Prod.mk.injEq] at h
                                              omega
                                        · rw [if_neg hc61] at h
                                          by_cases hc92 : ch = 92
                                          · rw [if_pos hc92] at h
                                            simp only [Option.some.injEq, Prod.mk.injEq] at h
                                            omega
                                          · rw [if_neg hc92] at h
                                            by_cases hc33 : ch = 33
                                            · rw [if_pos hc33] at h
                                              by_cases hx0 : rest.head? = some 61
                                              · rw [if_pos hx0] at h
                                                have hl := length_pos_of_head? hx0
                                                simp only [Option.some.injEq, Prod.mk.injEq] at h
                                                omega
                                              · rw [if_neg hx0] at h
                                                simp only [Option.some.injEq, Prod.mk.injEq] at h
                                                omega
                                            · rw [if_neg hc33] at h
                                              exact absurd h (by simp)

/-- A successful symbol scan consumes one to three bytes and advances the
column by the same count. -/
theorem try_lex_symbol_scanStep {l c : Nat} {input : List Nat} {t : Token}
    {s' : LexState} (h : try_lex_symbol ⟨l, c, input⟩ = .ok (t, s')) :
    ScanStep l c input t s' := by
  cases input with
  | nil => simp [try_lex_symbol] at h
  | cons ch rest =>
    simp only [try_lex_symbol] at h
    cases hsl : symbolLookup ch rest with
    | none => simp only [hsl] at h; exact absurd h (by simp)
    | some p =>
      obtain ⟨sym, k⟩ := p
      simp only [hsl] at h
      simp only [Res.ok.injEq, Prod.mk.injEq] at h
      obtain ⟨ht, hs⟩ := h
      subst ht
      subst hs
      obtain ⟨hk1, hk2⟩ := symbolLookup_bounds hsl
      exact ⟨k, hk1, by simp only [List.length_cons]; omega, rfl, rfl,
        Or.inl ⟨rfl, rfl⟩⟩

/-- When the string scan finds the closing quote, its index lies inside
the scanned buffer, the newline count only grows, and on a line without
embedded newlines the final column is the entry column plus the consumed
bytes plus the quote. -/
theorem scanStr_found : ∀ (n : Nat) (rem : List Nat), rem.length ≤ n →
    ∀ (i0 n0 c0 : Nat) (e : Bool) (idx nl nc : Nat) (esc : Bool),
    scanStr rem i0 n0 c0 e = .found idx nl nc esc →
    ∃ j, idx = i0 + j ∧ j < rem.length ∧ n0 ≤ nl ∧
      (nl = n0 → nc = c0 + j + 1) := by
  intro n
  induction n with
  | zero =>
    intro rem hlen i0 n0 c0 e idx nl nc esc h
    have hr : rem = [] := List.eq_nil_of_length_eq_zero (Nat.le_zero.mp hlen)
    subst hr
    simp [scanStr] at h
  | succ n ih =>
    intro rem hlen i0 n0 c0 e idx nl nc esc h
    cases rem with
    | nil => simp [scanStr] at h
    | cons b tl =>
      by_cases hb34 : b = 34
      · subst hb34
        simp only [scanStr, ScanOut.found.injEq] at h
        obtain ⟨h1, h2, h3, h4⟩ := h
        exact ⟨0, by omega, by simp, by omega, fun _ => by omega⟩
      · by_cases hb92 : b = 92
        · subst hb92
          cases tl with
          | nil => simp [scanStr] at h
          | cons cc tl2 =>
            simp only [scanStr] at h
            split at h
            · obtain ⟨j, hj1, hj2, hj3, hj4⟩ :=
                ih tl2 (by simp at hlen; omega) _ _ _ _ _ _ _ _ h
              refine ⟨j + 2, by omega, by simp only [List.length_cons]; omega,
                hj3, fun he => ?_⟩
              have := hj4 he
              omega
            · exact absurd h (by simp)
        · by_cases hb10 : b = 10
          · subst hb10
            simp only [scanStr] at h
            obtain ⟨j, hj1, hj2, hj3, hj4⟩ :=
              ih tl (by simp at hlen; omega) _ _ _ _ _ _ _ _ h
            refine ⟨j + 1, by omega, by simp only [List.length_cons]; omega,
              by omega, fun he => ?_⟩
            omega
          · rw [scanStr_cons_other tl i0 n0 c0 e hb34 hb92 hb10] at h
            obtain ⟨j, hj1, hj2, hj3, hj4⟩ :=
              ih tl (by simp at hlen; omega) _ _ _ _ _ _ _ _ h
            refine ⟨j + 1, by omega, by simp only [List.length_cons]; omega,
              hj3, fun he => ?_⟩
            have := hj4 he
            omega

/-- A successful string scan consumes the literal up to and including the
closing quote and moves the cursor strictly forward. -/
theorem lex_string_scanStep {l c : Nat} {input : List Nat} {t : Token}
    {s' : LexState} (h : lex_string ⟨l, c, input⟩ = .ok (t, s')) :
    ScanStep l c input t s' := by
  rcases input with _ | ⟨b0, content⟩
  · simp [lex_string] at h
  by_cases hb0 : b0 = 34
  · subst hb0
    simp only [lex_string] at h
    cases hscan : scanStr content 0 0 (c + 1) false with
    | panicScan => simp only [hscan] at h; exact absurd h (by simp)
    | errScan => simp only [hscan] at h; exact absurd h (by simp)
    | exhausted idx nl2 nc2 esc =>
      simp only [hscan] at h
      split at h <;> exact absurd h (by simp)
    | found idx nl2 nc2 esc =>
      simp only [hscan] at h
      obtain ⟨j, hj1, hj2, hj3, hj4⟩ :=
        scanStr_found content.length content le_rfl 0 0 (c + 1) false idx nl2
          nc2 esc hscan
      split at h
      · split at h
        · exact absurd h (by simp)
        · simp only [Res.ok.injEq, Prod.mk.injEq] at h
          obtain ⟨ht, hs⟩ := h
          subst ht
          subst hs
          refine ⟨idx + 2, by omega, by simp only [List.length_cons]; omega,
            rfl, ?_, ?_⟩
          · rfl
          · by_cases hnl : nl2 = 0
            · left
              constructor
              · show l + nl2 = l
                omega
              · show nc2 = c + (idx + 2)
                have := hj4 (by omega)
                omega
            · right
              show l < l + nl2
              omega
      · exact absurd h (by simp)
  · simp [lex_string, hb0] at h

/-- Prepending a whitespace byte preserves a coverage decomposition by
widening the first gap. -/
theorem Covers_cons_ws {b : Nat} {inp : List Nat} {spans : List (Nat × Nat)}
    (hb : isWs b = true) (h : Covers inp spans) :
    ∃ spans2, Covers (b :: inp) spans2 ∧ spans2.length = spans.length := by
  cases spans with
  | nil =>
    refine ⟨[], ?_, rfl⟩
    simp only [Covers] at h ⊢
    intro x hx
    rcases List.mem_cons.mp hx with rfl | hx2
    · exact hb
    · exact h x hx2
  | cons gk tl =>
    obtain ⟨g, k⟩ := gk
    simp only [Covers] at h
    obtain ⟨hg, hk, hbound, hrest⟩ := h
    refine ⟨(g + 1, k) :: tl, ?_, by simp⟩
    simp only [Covers]
    refine ⟨?_, hk, ?_, ?_⟩
    · intro x hx
      rw [List.take_succ_cons] at hx
      rcases List.mem_cons.mp hx with rfl | hx2
      · exact hb
      · exact hg x hx2
    · simp only [List.length_cons]
      omega
    · have harr : g + 1 + k = (g + k) + 1 := by omega
      rw [harr, List.drop_succ_cons]
      exact hrest

/-- A token span of k consumed bytes extends a coverage decomposition of
what remains. -/
theorem Covers_token {inp : List Nat} {spans : List (Nat × Nat)} {k : Nat}
    (hk : 1 ≤ k) (hle : k ≤ inp.length) (h : Covers (inp.drop k) spans) :
    Covers inp ((0, k) :: spans) := by
  simp only [Covers]
  refine ⟨by simp, hk, by omega, ?_⟩
  simpa using h

/-- One successful sub-scanner step extends all three loop invariants:
strictly ascending positions, tokens not before the entry position, and a
coverage decomposition with one span per token. -/
theorem inv_combine {l c : Nat} {inp : List Nat} {t : Token} {s' : LexState}
    {ts' : List Token}
    (hstep : ScanStep l c inp t s')
    (hchain : List.Chain' (fun a b => posLt a.pos b.pos) ts')
    (hge : ∀ x ∈ ts', posLe ⟨s'.cur_line, s'.cur_col⟩ x.pos)
    (hspans : ∃ spans, Covers s'.input spans ∧ spans.length = ts'.length) :
    List.Chain' (fun a b => posLt a.pos b.pos) (t :: ts') ∧
    (∀ x ∈ t :: ts', posLe ⟨l, c⟩ x.pos) ∧
    ∃ spans, Covers inp spans ∧ spans.length = (t :: ts').length := by
  obtain ⟨k, hk1, hk2, hpos, hinp, hlc⟩ := hstep
  have hlt : posLt ⟨l, c⟩ ⟨s'.cur_line, s'.cur_col⟩ := by
    rcases hlc with ⟨h1, h2⟩ | h1
    · right
      refine ⟨h1.symm, ?_⟩
      simp only
      omega
    · left
      exact h1
  refine ⟨?_, ?_, ?_⟩
  · rw [List.chain'_cons']
    refine ⟨?_, hchain⟩
    intro y hy
    cases ts' with
    | nil => simp at hy
    | cons t2 tl2 =>
      simp only [List.head?_cons, Option.mem_def, Option.some.injEq] at hy
      subst hy
      rw [hpos]
      exact posLt_trans_posLe hlt (hge t2 (by simp))
  · intro x hx
    rcases List.mem_cons.mp hx with rfl | hx2
    · rw [hpos]
      exact posLe_refl _
    · exact posLe_trans (posLe_of_posLt hlt) (hge x hx2)
  · obtain ⟨spans, hcov, hlen⟩ := hspans
    rw [hinp] at hcov
    exact ⟨(0, k) :: spans, Covers_token hk1 hk2 hcov, by simp [hlen]⟩

/-- The three loop invariants hold for every successful run of the
dispatch loop. -/
theorem lexLoop_inv : ∀ (fuel : Nat) (s : LexState) (ts : List Token),
    lexLoop fuel s = .ok ts →
    List.Chain' (fun a b => posLt a.pos b.pos) ts ∧
    (∀ x ∈ ts, posLe ⟨s.cur_line, s.cur_col⟩ x.pos) ∧
    ∃ spans, Covers s.input spans ∧ spans.length = ts.length := by
  intro fuel
  induction fuel with
  | zero =>
    intro s ts h
    obtain ⟨l, c, inp⟩ := s
    cases inp with
    | nil =>
      have h2 : (Res.ok [] : Res (List Token)) = .ok ts := h
      simp only [Res.ok.injEq] at h2
      subst h2
      exact ⟨by simp, by simp, [], by simp [Covers], rfl⟩
    | cons ch rest =>
      have h2 : (Res.panic : Res (List Token)) = .ok ts := h
      exact absurd h2 (by simp)
  | succ fuel ih =>
    intro s ts h
    obtain ⟨l, c, inp⟩ := s
    cases inp with
    | nil =>
      have h2 : (Res.ok [] : Res (List Token)) = .ok ts := h
      simp only [Res.ok.injEq] at h2
      subst h2
      exact ⟨by simp, by simp, [], by simp [Covers], rfl⟩
    | cons ch rest =>
      by_cases hw : isWordStart ch = true
      · rw [lexLoop_step_word fuel l c ch rest hw] at h
        obtain ⟨t, s', ts', hscan, hrec, rfl⟩ := stepBind_ok h
        obtain ⟨hchain, hge, hspans⟩ := ih s' ts' hrec
        exact inv_combine (lex_word_scanStep (isWordChar_of_start hw) hscan)
          hchain hge hspans
      · by_cases hd : isDigitB ch = true
        · rw [lexLoop_step_number fuel l c ch rest (by simpa using hw) hd] at h
          obtain ⟨t, s', ts', hscan, hrec, rfl⟩ := stepBind_ok h
          obtain ⟨hchain, hge, hspans⟩ := ih s' ts' hrec
          exact inv_combine (lex_number_scanStep (isWordChar_of_digit hd) hscan)
            hchain hge hspans
        · by_cases h34 : ch = 34
          · subst h34
            rw [lexLoop_step_string fuel l c rest] at h
            obtain ⟨t, s', ts', hscan, hrec, rfl⟩ := stepBind_ok h
            obtain ⟨hchain, hge, hspans⟩ := ih s' ts' hrec
            exact inv_combine (lex_string_scanStep hscan) hchain hge hspans
          · by_cases h39 : ch = 39
            · subst h39
              rw [lexLoop_step_char fuel l c rest] at h
              obtain ⟨t, s', ts', hscan, hrec, rfl⟩ := stepBind_ok h
              obtain ⟨hchain, hge, hspans⟩ := ih s' ts' hrec
              exact inv_combine (lex_character_scanStep hscan) hchain hge hspans
            · by_cases h10 : ch = 10
              · subst h10
                rw [lexLoop_step_newline fuel l c rest] at h
                obtain ⟨hchain, hge, hspans⟩ := ih ⟨l + 1, 1, rest⟩ ts h
                refine ⟨hchain, ?_, ?_⟩
                · intro x hx
                  exact posLe_trans
                    (show posLe ⟨l, c⟩ ⟨l + 1, 1⟩ from Or.inl (show l < l + 1 by omega))
                    (hge x hx)
                · obtain ⟨spans, hcov, hlen⟩ := hspans
                  obtain ⟨spans2, hc2, hl2⟩ :=
                    Covers_cons_ws (show isWs 10 = true from rfl) hcov
                  exact ⟨spans2, hc2, by omega⟩
              · by_cases hws : isWs ch = true
                · rw [lexLoop_step_ws fuel l c ch rest hws h10] at h
                  obtain ⟨hchain, hge, hspans⟩ := ih ⟨l, c + 1, rest⟩ ts h
                  refine ⟨hchain, ?_, ?_⟩
                  · intro x hx
                    exact posLe_trans
                      (show posLe ⟨l, c⟩ ⟨l, c + 1⟩ from Or.inr ⟨rfl, show c ≤ c + 1 by omega⟩)
                      (hge x hx)
                  · obtain ⟨spans, hcov, hlen⟩ := hspans
                    obtain ⟨spans2, hc2, hl2⟩ := Covers_cons_ws hws hcov
                    exact ⟨spans2, hc2, by omega⟩
                · rw [lexLoop_step_symbol fuel l c ch rest (by simpa using hw)
                    (by simpa using hd) h34 h39 h10 (by simpa using hws)] at h
                  obtain ⟨t, s', ts', hscan, hrec, rfl⟩ := stepBind_ok h
                  obtain ⟨hchain, hge, hspans⟩ := ih s' ts' hrec
                  exact inv_combine (try_lex_symbol_scanStep hscan) hchain hge
                    hspans

/-- A strictly ascending chain of positions is pairwise ascending. -/
theorem chain_pairwise_posLt : ∀ ts : List Token,
    List.Chain' (fun a b => posLt a.pos b.pos) ts →
    List.Pairwise (fun a b => posLt a.pos b.pos) ts := by
  intro ts
  induction ts with
  | nil => intro _; exact List.Pairwise.nil
  | cons t tl ih =>
    intro h
    rw [List.chain'_cons'] at h
    obtain ⟨hhead, htl⟩ := h
    refine List.pairwise_cons.mpr ⟨?_, ih htl⟩
    cases tl with
    | nil => intro x hx; simp at hx
    | cons t2 tl2 =>
      have h12 : posLt t.pos t2.pos := hhead t2 (by simp)
      intro x hx
      rcases List.mem_cons.mp hx with rfl | hx2
      · exact h12
      · have hp := ih htl
        exact posLt_trans_posLe h12
          (posLe_of_posLt ((List.pairwise_cons.mp hp).1 x hx2))

/-- The loop maps all-whitespace input to the empty token list. -/
theorem lexLoop_all_ws : ∀ (fuel : Nat) (s : LexState),
    s.input.length ≤ fuel → (∀ b ∈ s.input, isWs b = true) →
    lexLoop fuel s = .ok [] := by
  intro fuel
  induction fuel with
  | zero =>
    intro s hlen _
    obtain ⟨l, c, inp⟩ := s
    cases inp with
    | nil => rfl
    | cons b rest => simp at hlen
  | succ fuel ih =>
    intro s hlen hws
    obtain ⟨l, c, inp⟩ := s
    cases inp with
    | nil => rfl
    | cons b rest =>
      have hb := hws b (by simp)
      have hws2 : ∀ x ∈ rest, isWs x = true := fun x hx => hws x (by simp [hx])
      have hlen2 : rest.length ≤ fuel := by simp at hlen; omega
      rcases isWs_cases hb with rfl | rfl | rfl | rfl | rfl
      · exact ih ⟨l, c + 1, rest⟩ hlen2 hws2
      · exact ih ⟨l, c + 1, rest⟩ hlen2 hws2
      · exact ih ⟨l + 1, 1, rest⟩ hlen2 hws2
      · exact ih ⟨l, c + 1, rest⟩ hlen2 hws2
      · exact ih ⟨l, c + 1, rest⟩ hlen2 hws2

/-- C3: whenever `Lexer::lex` succeeds, the produced token sequence is
strictly ascending in source position (line, then column), and the input
admits a gap/length decomposition with exactly one span per token in
which every byte outside the spans is whitespace — the tokens cover every
non-whitespace byte exactly once, with no gaps and no overlaps; and an
input consisting solely of whitespace yields the empty token sequence. -/
theorem c3_ordered_coverage (input : List Nat) (ts : List Token)
    (h : lex input = .ok ts) :
    List.Pairwise (fun a b => posLt a.pos b.pos) ts ∧
    (∃ spans, Covers input spans ∧ spans.length = ts.length) ∧
    ((∀ b ∈ input, isWs b = true) → ts = []) := by
  obtain ⟨hchain, _, hspans⟩ := lexLoop_inv input.length ⟨1, 1, input⟩ ts h
  refine ⟨chain_pairwise_posLt ts hchain, hspans, ?_⟩
  intro hws
  have hok : lexLoop input.length ⟨1, 1, input⟩ = .ok [] :=
    lexLoop_all_ws input.length ⟨1, 1, input⟩ le_rfl hws
  have h2 : (Res.ok [] : Res (List Token)) = .ok ts := by
    rw [← hok]
    exact h
  simp only [Res.ok.injEq] at h2
  exact h2.symm

theorem c3_ordered_coverage_witness :
    List.Pairwise (fun a b => posLt a.pos b.pos) ([] : List Token) ∧
    (∃ spans, Covers [32] spans ∧ spans.length = ([] : List Token).length) ∧
    ((∀ b ∈ [32], isWs b = true) → ([] : List Token) = []) :=
  c3_ordered_coverage [32] [] rfl

end Lang
